import Mathlib

/-!
Shallow embedding of the visibility / navigation core of the crawl repository
(src/geo/graph.rs, src/geo/fov.rs, src/actor/ai.rs, src/actor/mod.rs,
src/main.rs), together with theorems settling the frozen claims about it.

Conventions used throughout:
* Rust i64 is modelled as Lean Int (no arithmetic here comes near overflow).
* Rust f64 cost values in the A* search are modelled as Option Rat, where
  none stands for f64::INFINITY (the only non-finite value the code can
  produce: all costs are sums of non-negative integer Manhattan distances,
  which f64 represents exactly).  See infLt / infAdd below.
* Loops that are not structurally bounded in the source (the A* main loop,
  the path-reconstruction walk, the recursive FOV sector split) take a fuel
  parameter; a result of none at the outer Option layer means the fuel ran
  out, and every theorem quantifies over the fuel.
* HashMap / HashSet become total functions with a default, or Finset.
-/

/-- A two-dimensional point with signed integer coordinates, as in
geo/mod.rs (Point, with T = i64). -/
structure Point where
  x : Int
  y : Int
deriving DecidableEq, Repr

/-- Componentwise addition of points (geo/impls.rs, impl Add for Point). -/
def Point.add (p q : Point) : Point :=
  ⟨p.x + q.x, p.y + q.y⟩

/-- Componentwise subtraction of points (geo/impls.rs, impl Sub for Point). -/
def Point.sub (p q : Point) : Point :=
  ⟨p.x - q.x, p.y - q.y⟩

/-- Scaling of a point by an integer (geo/impls.rs, impl Mul for Point). -/
def Point.smul (p : Point) (k : Int) : Point :=
  ⟨p.x * k, p.y * k⟩

/-- Manhattan norm of a point: x.abs() + y.abs() (geo/mod.rs, manhattan). -/
def Point.manhattan (p : Point) : Int :=
  |p.x| + |p.y|

/-- Modelled from the spec: the result of Dir::all(), with each direction
converted to a unit offset by to_point.  The definition of the Dir enum is
not among the provided sources (only its uses in graph.rs and actor code
are), and the spec says neighbor expansion enumerates a fixed-order set of
8 directions, the 4 orthogonal and the 4 diagonal unit steps.  The claims
proved below do not depend on the enumeration order. -/
def dirAll : List Point :=
  [⟨0, -1⟩, ⟨1, -1⟩, ⟨1, 0⟩, ⟨1, 1⟩, ⟨0, 1⟩, ⟨-1, 1⟩, ⟨-1, 0⟩, ⟨-1, -1⟩]

/-- The tile kinds of map/mod.rs. -/
inductive Tile where
  | Void
  | Wall
  | Ground
deriving DecidableEq, Repr

/-- A floor, abstracted to its point-indexed tile lookup: Floor::chunk
composed with Chunk::tile.  The chunk storage scheme itself (map/mod.rs) is
incidental here; chunk(p) returning None is modelled by the lookup
returning none. -/
def Floor : Type :=
  Point → Option Tile

/-- The walkability predicate the AI systems build from a floor:
floor.chunk(p).map(|c| *c.tile(p) == Tile::Ground).unwrap_or(false)
(actor/ai.rs, used in repath and in the pathfind system). -/
def floorWalkable (floor : Floor) (p : Point) : Bool :=
  ((floor p).map fun t => decide (t = Tile.Ground)).getD false

/-- The opacity predicate main.rs builds for the FOV computation:
floor.chunk(p).map(|c| *c.tile(p) != Tile::Ground).unwrap_or(true)
(main.rs, process_visibility). -/
def floorOpaque (floor : Floor) (p : Point) : Bool :=
  ((floor p).map fun t => decide (t ≠ Tile.Ground)).getD true

/-- Strict comparison of f64 g-scores, with none playing f64::INFINITY
(geo/graph.rs uses < on f64; INFINITY < x is false for every x, and
x < INFINITY is true for every finite x). -/
def infLt : Option ℚ → Option ℚ → Bool
  | none, _ => false
  | some _, none => true
  | some a, some b => decide (a < b)

/-- Addition of a finite cost to a possibly-infinite cost
(INFINITY + d = INFINITY for finite d). -/
def infAdd (a : Option ℚ) (d : ℚ) : Option ℚ :=
  a.map fun q => q + d

/-- An entry of the A* open queue: a priority (the f-score the node was
pushed with) and the node itself (geo/graph.rs, struct Node). -/
def AStarNode : Type :=
  Option ℚ × Point

/-- Removing a minimum-priority node from the open queue.  Rust keeps the
open nodes in a BinaryHeap whose (reversed) Node ordering compares only the
f-score, so pop yields some node of least f-score; which of several
equal-priority nodes is popped is unspecified in Rust, and the theorems
below do not depend on the choice made here. -/
def popMin : List AStarNode → Option (AStarNode × List AStarNode)
  | [] => none
  | n :: rest =>
    match popMin rest with
    | none => some (n, [])
    | some (m, rest') =>
      if infLt m.1 n.1 then some (m, n :: rest') else some (n, rest)

/-- Path reconstruction from the predecessor map: starting at the popped
goal, repeatedly follow came_from, pushing each point (geo/graph.rs,
the while-let loop inside a_star).  The walk is given fuel; the claims
below do not depend on the reconstruction being complete. -/
def buildPath (cameFrom : Point → Option Point) : Nat → Point → List Point
  | 0, current => [current]
  | n + 1, current =>
    match cameFrom current with
    | none => [current]
    | some next => current :: buildPath cameFrom n next

/-- One neighbor-expansion step of the A* main loop: for direction d, if
the neighbor can be walked, compute the tentative g-score and, when it
improves on the recorded one, record the predecessor, record the g-score,
and push the neighbor with priority tentative + heuristic (geo/graph.rs,
the for-loop over Dir::all()). -/
def aStarStep (canWalk : Point → Bool) (distance : Point → Point → ℚ)
    (heuristic : Point → ℚ) (current : Point)
    (st : List AStarNode × (Point → Option Point) × (Point → Option ℚ))
    (d : Point) :
    List AStarNode × (Point → Option Point) × (Point → Option ℚ) :=
  let neighbor := current.add d
  if canWalk neighbor then
    let (opens, cameFrom, gScores) := st
    let tentative := infAdd (gScores current) (distance current neighbor)
    if infLt tentative (gScores neighbor) then
      ((infAdd tentative (heuristic neighbor), neighbor) :: opens,
       fun p => if p = neighbor then some current else cameFrom p,
       fun p => if p = neighbor then tentative else gScores p)
    else st
  else st

/-- The A* main loop (geo/graph.rs, the while-let over open_nodes.pop()).
Result none means the fuel ran out; some none is the source returning
None (open set exhausted); some (some path) is success. -/
def aStarLoop (canWalk : Point → Bool) (distance : Point → Point → ℚ)
    (heuristic : Point → ℚ) (goal : Point) :
    Nat → List AStarNode → (Point → Option Point) → (Point → Option ℚ) →
    Option (Option (List Point))
  | 0, _, _, _ => none
  | fuel + 1, opens, cameFrom, gScores =>
    match popMin opens with
    | none => some none
    | some (node, rest) =>
      if node.2 = goal then
        some (some (buildPath cameFrom (fuel + 1) node.2))
      else
        let st := dirAll.foldl
          (aStarStep canWalk distance heuristic node.2)
          (rest, cameFrom, gScores)
        aStarLoop canWalk distance heuristic goal fuel st.1 st.2.1 st.2.2

/-- The a_star entry point (geo/graph.rs): g_scores starts with start at 0,
and the open queue with start at priority heuristic(start). -/
def a_star (fuel : Nat) (start goal : Point) (canWalk : Point → Bool)
    (distance : Point → Point → ℚ) (heuristic : Point → ℚ) :
    Option (Option (List Point)) :=
  aStarLoop canWalk distance heuristic goal fuel
    [(some (heuristic start), start)]
    (fun _ => none)
    (fun p => if p = start then some 0 else none)

/-- manhattan_a_star (geo/graph.rs): a_star with Manhattan distance and
Manhattan heuristic.  The i64 Manhattan values are cast to the cost type
exactly, as the source casts them to f64. -/
def manhattan_a_star (fuel : Nat) (start goal : Point)
    (canWalk : Point → Bool) : Option (Option (List Point)) :=
  a_star fuel start goal canWalk
    (fun a b => ((a.sub b).manhattan : ℚ))
    (fun n => ((n.sub goal).manhattan : ℚ))

/-- The outcome of invoking one Tactic of a Pathfind script during a
single refresh_goal call: whether the tactic declares run_always(), and
the Option goal its generate_goal returns when invoked (actor/ai.rs,
trait Tactic).  Tactic objects are stateful and read the world, so one
refresh_goal call is modelled against the outcomes the tactics would
produce on that call; the claims quantify over all outcome assignments. -/
structure TacticCall where
  run_always : Bool
  gen : Option Point
deriving DecidableEq, Repr

/-- The Pathfind component (actor/ai.rs): a goal-finding script, the
current goal, and the cached path, stored goal-first / current-last. -/
structure Pathfind where
  script : List TacticCall
  goal : Option Point
  path : List Point
deriving DecidableEq, Repr

/-- The loop body of Pathfind::refresh_goal (actor/ai.rs): walk the script
in order; skip a tactic when a goal is set and the tactic does not run
always; the first tactic producing Some goal installs it, clearing the
path when it differs from the previous goal, and ends the walk. -/
def refreshGoalGo : List TacticCall → Pathfind → Pathfind
  | [], pf => pf
  | t :: rest, pf =>
    if pf.goal.isSome && !t.run_always then
      refreshGoalGo rest pf
    else
      match t.gen with
      | some goal =>
        let requiresRepath := pf.goal ≠ some goal
        { pf with
          goal := some goal
          path := if requiresRepath then [] else pf.path }
      | none => refreshGoalGo rest pf

/-- Pathfind::refresh_goal (actor/ai.rs). -/
def refresh_goal (pf : Pathfind) : Pathfind :=
  refreshGoalGo pf.script pf

/-- Pathfind::repath (actor/ai.rs): recompute the cached path to the goal
with manhattan_a_star, walkability bound to the floor being Ground;
unwrap_or(Vec::new()) on failure.  The occupied set is accepted and
ignored, exactly as the _occupied parameter of the source.  Fuel
exhaustion of the embedded search is also mapped to the empty path. -/
def repath (fuel : Nat) (pf : Pathfind) (current : Point) (floor : Floor)
    (_occupied : Finset Point) : Pathfind :=
  match pf.goal with
  | some goal =>
    { pf with
      path :=
        ((manhattan_a_star fuel current goal (floorWalkable floor)).join).getD [] }
  | none => pf

/-- Pathfind::next_pos (actor/ai.rs): with no goal, or the goal equal to
the current position, clear the goal and yield nothing.  Otherwise
validate the cache (the current position must be the last path element),
repathing when invalid; then pop the last element, read the new last
element as the next step, and clear the goal when the path has become
empty. -/
def next_pos (fuel : Nat) (pf : Pathfind) (current : Point) (floor : Floor)
    (occupied : Finset Point) : Pathfind × Option Point :=
  if pf.goal = none ∨ pf.goal = some current then
    ({ pf with goal := none }, none)
  else
    let pf1 :=
      if some current ≠ pf.path.getLast? then
        repath fuel pf current floor occupied
      else pf
    let path1 := pf1.path.dropLast
    let next := path1.getLast?
    let pf2 :=
      { pf1 with
        path := path1
        goal := if path1.isEmpty then none else pf1.goal }
    (pf2, next)

/-- The tactic-selection predicate of the refresh_goal walk: a tactic is
considered (not skipped) when no goal is set or it runs always, and it
wins when, additionally, it generates a goal. -/
def tacticWins (goal0 : Option Point) (t : TacticCall) : Bool :=
  !(goal0.isSome && !t.run_always) && t.gen.isSome

/-- An entity of the world as seen by the pathfind system (actor/mod.rs
components): an optional Position and whether the Tangible marker is
attached.  Only the fields the occupancy query reads are modelled. -/
structure Entity where
  position : Option Point
  tangible : Bool
deriving DecidableEq, Repr

/-- The occupancy set built at the start of the movement phase
(actor/ai.rs, pathfind system): the positions of all entities carrying a
Position, collected into a set.  The source has the line
.filter(component::<&Tangible>()) commented out, so no tangibility filter
is applied. -/
def buildOccupied (world : List Entity) : Finset Point :=
  (world.filterMap Entity.position).toFinset

/-- The bounded resolution loop of the movement phase (actor/ai.rs,
for _ in 0..3 inside the pathfind system): if the candidate cell is
walkable and unoccupied, commit the move (updating the occupancy set only
for tangible entities) and stop; otherwise repath and retry.  The
returned Nat counts the loop iterations executed, to state the bounded
retry property. -/
def moveAttempts (fuel : Nat) (floor : Floor) (p : Point)
    (isWalkable : Bool) (tangible : Bool) :
    Nat → Pathfind → Point → Finset Point →
    Pathfind × Point × Finset Point × Nat
  | 0, pf, pos, occupied => (pf, pos, occupied, 0)
  | n + 1, pf, pos, occupied =>
    if isWalkable && !(decide (p ∈ occupied)) then
      let occupied' :=
        if tangible then insert p (occupied.erase pos) else occupied
      (pf, p, occupied', 1)
    else
      let pf1 := repath fuel pf pos floor occupied
      let (pf2, pos2, occ2, k) :=
        moveAttempts fuel floor p isWalkable tangible n pf1 pos occupied
      (pf2, pos2, occ2, k + 1)

/-- Movement-phase processing of one agent (actor/ai.rs, the body of the
second query loop of the pathfind system): ask next_pos for a candidate,
and if one is produced, resolve it with at most 3 attempts. -/
def pathfindMoveAgent (fuel : Nat) (floor : Floor) (pf : Pathfind)
    (pos : Point) (tangible : Bool) (occupied : Finset Point) :
    Pathfind × Point × Finset Point × Nat :=
  match next_pos fuel pf pos floor occupied with
  | (pf1, some p) =>
    let isWalkable := floorWalkable floor p
    moveAttempts fuel floor p isWalkable tangible 3 pf1 pos occupied
  | (pf1, none) => (pf1, pos, occupied, 0)

/-- A slope in the plane, an unreduced rational y/x (geo/fov.rs,
struct Slope). -/
structure Slope where
  x : Int
  y : Int
deriving DecidableEq, Repr

/-- Slope comparison by cross-multiplication (geo/fov.rs, the PartialOrd
impl: self.y * other.x compared with other.y * self.x); this one is the
strict greater-than used for comparisons between two slopes. -/
def slopeGt (a b : Slope) : Bool :=
  decide (a.y * b.x > b.y * a.x)

/-- Slope strictly greater than a point, the point read as the slope
y/x (geo/fov.rs, PartialOrd of Slope against Point). -/
def slopeGtP (a : Slope) (q : Point) : Bool :=
  decide (a.y * q.x > q.y * a.x)

/-- Slope greater than or equal to a point (geo/fov.rs). -/
def slopeGeP (a : Slope) (q : Point) : Bool :=
  decide (a.y * q.x ≥ q.y * a.x)

/-- Slope strictly less than a point (geo/fov.rs). -/
def slopeLtP (a : Slope) (q : Point) : Bool :=
  decide (a.y * q.x < q.y * a.x)

/-- Tile geometry helper top_left: p * 2 + (-1, 1) (geo/fov.rs,
tile_fns). -/
def tileTopLeft (p : Point) : Point :=
  (p.smul 2).add ⟨-1, 1⟩

/-- Tile geometry helper top_right: p * 2 + (1, 1). -/
def tileTopRight (p : Point) : Point :=
  (p.smul 2).add ⟨1, 1⟩

/-- Tile geometry helper middle_top: p * 2 + (0, 1). -/
def tileMiddleTop (p : Point) : Point :=
  (p.smul 2).add ⟨0, 1⟩

/-- Tile geometry helper middle_bottom: p * 2 + (0, -1). -/
def tileMiddleBottom (p : Point) : Point :=
  (p.smul 2).add ⟨0, -1⟩

/-- Tile geometry helper inner_top_left: p * 4 + (-1, 1). -/
def tileInnerTopLeft (p : Point) : Point :=
  (p.smul 4).add ⟨-1, 1⟩

/-- Tile geometry helper inner_bottom_right: p * 4 + (1, -1). -/
def tileInnerBottomRight (p : Point) : Point :=
  (p.smul 4).add ⟨1, -1⟩

/-- The per-octant state of the FOV sweep that recursion frames share
(geo/fov.rs, struct State, minus the callbacks, which are passed
separately). -/
structure FovState where
  origin : Point
  range : Point
  octant : Nat
deriving DecidableEq, Repr

/-- Octant-local to map coordinates (geo/fov.rs, State::oct2map): flip y,
then reflect according to the octant index. -/
def oct2map (origin : Point) (octant : Nat) (p : Point) : Point :=
  let px := p.x
  let py := -p.y
  match octant with
  | 0 => ⟨origin.x + px, origin.y - py⟩
  | 1 => ⟨origin.x + py, origin.y - px⟩
  | 2 => ⟨origin.x - py, origin.y - px⟩
  | 3 => ⟨origin.x - px, origin.y - py⟩
  | 4 => ⟨origin.x - px, origin.y + py⟩
  | 5 => ⟨origin.x - py, origin.y + px⟩
  | 6 => ⟨origin.x + py, origin.y + px⟩
  | _ => ⟨origin.x + px, origin.y + py⟩

/-- Opacity query in octant-local coordinates (geo/fov.rs,
State::is_opaque). -/
def isOpaqueLoc (st : FovState) (iso : Point → Bool) (p : Point) : Bool :=
  iso (oct2map st.origin st.octant p)

/-- The octant-local range: the two semi-axes swap in the four octants
that swap the x/y roles (geo/fov.rs, the start of State::recurse). -/
def rangeLoc (st : FovState) : Point :=
  if ([1, 2, 5, 6] : List Nat).contains st.octant then
    ⟨st.range.y, st.range.x⟩
  else
    st.range

/-- The row at which the top sector vector enters column x (geo/fov.rs,
the sector_top_y match inside State::recurse), including the bevel rules
deciding whether the vector passes into the tile above.  Rust i64
division truncates toward zero, hence Int.tdiv. -/
def topEntryY (st : FovState) (iso : Point → Bool) (top : Slope)
    (x : Int) : Int :=
  if top.x = 1 then x
  else
    let y := Int.tdiv ((x * 2 - 1) * top.y + top.x) (top.x * 2)
    let p : Point := ⟨x, y⟩
    if isOpaqueLoc st iso p then
      if slopeGeP top (tileMiddleTop p) &&
          isOpaqueLoc st iso (p.add ⟨0, 1⟩) then
        y + 1
      else y
    else
      let slope :=
        if isOpaqueLoc st iso (p.add ⟨1, 1⟩) then tileTopRight p
        else tileMiddleTop p
      if slopeGtP top slope then y + 1 else y

/-- The row at which the bottom sector vector enters column x (geo/fov.rs,
the sector_bottom_y match inside State::recurse). -/
def bottomEntryY (st : FovState) (iso : Point → Bool) (bottom : Slope)
    (x : Int) : Int :=
  if bottom.y = 0 then 0
  else
    let y := Int.tdiv ((x * 2 - 1) * bottom.y + bottom.x) (bottom.x * 2)
    let p : Point := ⟨x, y⟩
    if slopeGeP bottom (tileMiddleBottom p) && isOpaqueLoc st iso p &&
        !isOpaqueLoc st iso (p.add ⟨0, 1⟩) then
      y + 1
    else y

/-- Control outcome of walking one column: proceed to the next column
with the given sector slopes, or end this recursion frame (the source
breaks out of the column loop, or returns, when the sector is spent). -/
inductive ColumnOut where
  | next (top bottom : Slope)
  | halt
deriving DecidableEq, Repr

/-- The descending list of rows hi, hi-1, ..., lo walked by the column
loop (geo/fov.rs, for y in (sector_bottom_y..=sector_top_y).rev()). -/
def intRangeDesc (hi lo : Int) : List Int :=
  (List.range (hi - lo + 1).toNat).map fun i => hi - i

/-- The ascending list of columns lo, ..., hi walked by the outer loop
(geo/fov.rs, for x in x_start..=range.x()). -/
def intRangeAsc (lo hi : Int) : List Int :=
  (List.range (hi - lo + 1).toNat).map fun i => lo + i

/-- Walking one column of the sector from the top row down (geo/fov.rs,
the inner for-y loop of State::recurse).  recFn is the recursive call
State::recurse makes at x + 1 when an obstruction splits the sector; tyv
and byv are the column's sector_top_y and sector_bottom_y; the returned
list collects the ignited points, in map coordinates and in call order.
Each row: skip it when it fails the strict elliptical range test;
otherwise ignite it when opaque or when it passes the inner-corner tests
at the sector extremes; then, unless the column is the last of the
(unswapped) range, handle opacity transitions, splitting or narrowing the
sector. -/
def columnWalk (recFn : Int → Slope → Slope → List Point) (st : FovState)
    (iso : Point → Bool) (x tyv byv : Int) :
    List Int → Slope → Slope → Option Bool → List Point × ColumnOut
  | [], top, bottom, wasOpaque =>
    ([], if wasOpaque = some false then .next top bottom else .halt)
  | y :: ys, top, bottom, wasOpaque =>
    let p : Point := ⟨x, y⟩
    let a := (rangeLoc st).x
    let b := (rangeLoc st).y
    if x * x * b * b + y * y * a * a ≥ a * a * b * b then
      columnWalk recFn st iso x tyv byv ys top bottom wasOpaque
    else
      let isOpaque := isOpaqueLoc st iso p
      let isVisible := isOpaque ||
        ((decide (y ≠ tyv) || slopeGtP top (tileInnerBottomRight p)) &&
         (decide (y ≠ byv) || slopeLtP bottom (tileInnerTopLeft p)))
      let ign : List Point :=
        if isVisible then [oct2map st.origin st.octant p] else []
      if x = st.range.x then
        let r := columnWalk recFn st iso x tyv byv ys top bottom wasOpaque
        (ign ++ r.1, r.2)
      else if isOpaque && wasOpaque = some false then
        let c :=
          if isOpaqueLoc st iso (p.add ⟨0, 1⟩) then tileTopLeft p
          else tileMiddleTop p
        let slope : Slope := ⟨c.x, c.y⟩
        if slopeGt top slope then
          if y = byv then
            (ign, .next top slope)
          else
            let recPts := recFn (x + 1) top slope
            let r := columnWalk recFn st iso x tyv byv ys top bottom (some isOpaque)
            (ign ++ recPts ++ r.1, r.2)
        else
          if y = byv then
            (ign, .halt)
          else
            let r := columnWalk recFn st iso x tyv byv ys top bottom (some isOpaque)
            (ign ++ r.1, r.2)
      else if !isOpaque && wasOpaque = some true then
        let c :=
          if isOpaqueLoc st iso (p.add ⟨1, 1⟩) then tileTopRight p
          else tileMiddleTop p
        let slope : Slope := ⟨c.x, c.y⟩
        if slopeGt slope bottom then
          let r := columnWalk recFn st iso x tyv byv ys slope bottom (some isOpaque)
          (ign ++ r.1, r.2)
        else
          (ign, .halt)
      else
        let r := columnWalk recFn st iso x tyv byv ys top bottom (some isOpaque)
        (ign ++ r.1, r.2)

/-- The outer column loop of State::recurse (geo/fov.rs, for x in
x_start..=range.x()), carrying the sector slopes from column to
column. -/
def outerX (recFn : Int → Slope → Slope → List Point) (st : FovState)
    (iso : Point → Bool) :
    List Int → Slope → Slope → List Point
  | [], _, _ => []
  | x :: xs, top, bottom =>
    let tyv := topEntryY st iso top x
    let byv := bottomEntryY st iso bottom x
    let r :=
      columnWalk recFn st iso x tyv byv (intRangeDesc tyv byv) top bottom none
    match r.2 with
    | .halt => r.1
    | .next top' bottom' => r.1 ++ outerX recFn st iso xs top' bottom'

/-- State::recurse (geo/fov.rs), with fuel for the sector-split recursion
(the source recursion is bounded because every recursive call strictly
increases x_start toward the fixed range bound). -/
def fovRecurse : Nat → FovState → (Point → Bool) → Int → Slope → Slope →
    List Point
  | 0, _, _, _, _, _ => []
  | fuel + 1, st, iso, xStart, top, bottom =>
    outerX (fovRecurse fuel st iso) st iso
      (intRangeAsc xStart (rangeLoc st).x) top bottom

/-- The milazzo FOV entry point (geo/fov.rs): ignite the origin
unconditionally, then sweep the eight octants, each from column 1 with
the full sector between slopes 1/1 and 0/1.  The result is the list of
ignited points in call order (the ignite callback of the source is
modelled by list accumulation). -/
def milazzo (fuel : Nat) (origin range : Point) (iso : Point → Bool) :
    List Point :=
  origin ::
    (List.range 8).flatMap fun octant =>
      fovRecurse fuel ⟨origin, range, octant⟩ iso 1 ⟨1, 1⟩ ⟨1, 0⟩

/-- The Fov component (actor/mod.rs): view range semi-axes, the currently
visible set, and the accumulated seen set. -/
structure Fov where
  range : Point
  visible : Finset Point
  seen : Finset Point
deriving DecidableEq

/-- The process_visibility system, for one agent (main.rs): clear visible,
then run milazzo over the floor opacity, the ignite callback inserting
each point into both visible and seen. -/
def processVisibility (fuel : Nat) (floor : Floor) (pos : Point)
    (fov : Fov) : Fov :=
  let pts := milazzo fuel pos fov.range (floorOpaque floor)
  pts.foldl
    (fun f p => { f with visible := insert p f.visible,
                         seen := insert p f.seen })
    { fov with visible := ∅ }

/-- A sequence of visibility refreshes for one agent, each tick providing
the floor and the agent position for that tick. -/
def processVisibilitySeq (fuel : Nat) :
    List (Floor × Point) → Fov → Fov
  | [], fov => fov
  | c :: cs, fov =>
    processVisibilitySeq fuel cs (processVisibility fuel c.1 c.2 fov)

/-- The visible set produced by a single refresh, as determined by its
inputs (used to state that seen accumulates exactly these sets). -/
def producedVisible (fuel : Nat) (range : Point) (c : Floor × Point) :
    Finset Point :=
  (milazzo fuel c.2 range (floorOpaque c.1)).toFinset

/-- A point of the map plane that, read back in octant-local coordinates,
passes the strict elliptical range test of the column walk (with the
octant-locally swapped semi-axes). -/
def ellipseOkLoc (st : FovState) (q : Point) : Prop :=
  ∃ a b : Int,
    q = oct2map st.origin st.octant ⟨a, b⟩ ∧
    a * a * (rangeLoc st).y * (rangeLoc st).y +
        b * b * (rangeLoc st).x * (rangeLoc st).x <
      (rangeLoc st).x * (rangeLoc st).x * (rangeLoc st).y * (rangeLoc st).y

/-- Reachability of a point from start through cells accepted by the
walkability predicate, stepping by the 8 directions of Dir::all(); start
itself needs no walkability (mirrors which cells a_star subjects to
can_walk). -/
inductive Reach (canWalk : Point → Bool) (start : Point) : Point → Prop
  | refl : Reach canWalk start start
  | step {p d : Point} : Reach canWalk start p → d ∈ dirAll →
      canWalk (p.add d) = true → Reach canWalk start (p.add d)

/-- A floor with no chunks at all: every chunk lookup misses. -/
def noneFloor : Floor :=
  fun _ => none

/-- A floor that is wall everywhere. -/
def wallFloor : Floor :=
  fun _ => some Tile.Wall

/-- A walkability predicate accepting only the single cell (1, 0); under
it the goal (5, 5) used below has no walkable neighbor at all. -/
def cwOne : Point → Bool :=
  fun p => decide (p = ⟨1, 0⟩)

/-- A fully transparent opacity predicate. -/
def isoClear : Point → Bool :=
  fun _ => false

/-- A Pathfind holding a goal and a cached path that is valid for the
current position (0, 0): path [(0,2), (0,1), (0,0)], goal (0, 2). -/
def pfCached : Pathfind :=
  ⟨[], some ⟨0, 2⟩, [⟨0, 2⟩, ⟨0, 1⟩, ⟨0, 0⟩]⟩

/-- A Pathfind whose script has one run-always tactic that yields no goal,
while a goal (1, 1) is already set. -/
def pfStuck : Pathfind :=
  ⟨[⟨true, none⟩], some ⟨1, 1⟩, []⟩

/-- The intermediate state of the A* main loop: the open queue, the
predecessor map, and the g-score map. -/
def AState : Type :=
  List AStarNode × (Point → Option Point) × (Point → Option ℚ)

/-- The loop invariant of the A* main loop used to settle the
reachability claim: every queued node is reachable; start has a g-score;
every queued node has a g-score; every scored point is either still
queued or has had all its walkable neighbors scored; and the goal, once
scored, stays queued until popped (popping it ends the search). -/
def AStarInv (canWalk : Point → Bool) (start goal : Point)
    (st : AState) : Prop :=
  (∀ n ∈ st.1, Reach canWalk start n.2) ∧
  (st.2.2 start).isSome ∧
  (∀ n ∈ st.1, (st.2.2 n.2).isSome) ∧
  (∀ p, (st.2.2 p).isSome →
    (∃ n ∈ st.1, n.2 = p) ∨
      ∀ d ∈ dirAll, canWalk (p.add d) = true → (st.2.2 (p.add d)).isSome) ∧
  ((st.2.2 goal).isSome → ∃ n ∈ st.1, n.2 = goal)

/-- C10: calling a_star with start equal to goal returns the one-point
path [start] for every walkability predicate, distance function and
heuristic (so in particular when start is unwalkable), for any positive
fuel: the very first popped node is the goal, before any neighbor
expansion or can_walk query. -/
theorem a_star_self (fuel : Nat) (start : Point) (canWalk : Point → Bool)
    (distance : Point → Point → ℚ) (heuristic : Point → ℚ) :
    a_star (fuel + 1) start start canWalk distance heuristic =
      some (some [start]) := by
  unfold a_star aStarLoop
  simp [popMin, buildPath]

/-- C4: the FOV computation ignites the origin unconditionally, before
any octant is swept, for every origin, range and opacity predicate (so
also when the origin is opaque). -/
theorem milazzo_ignites_origin (fuel : Nat) (origin range : Point)
    (iso : Point → Bool) : origin ∈ milazzo fuel origin range iso := by
  unfold milazzo
  exact List.mem_cons_self _ _

/-- The refresh_goal walk is selection of the first tactic that is
considered (no goal set, or run-always) and generates a goal: helper for
the claims about refresh_goal. -/
theorem refreshGoalGo_eq_find (L : List TacticCall) (pf : Pathfind) :
    refreshGoalGo L pf =
      match L.find? (tacticWins pf.goal) with
      | none => pf
      | some t =>
        { pf with goal := t.gen,
                  path := if pf.goal = t.gen then pf.path else [] } := by
  induction L with
  | nil => rfl
  | cons t rest ih =>
    by_cases hskip : (pf.goal.isSome && !t.run_always) = true
    · have hw : tacticWins pf.goal t = false := by
        simp [tacticWins, hskip]
      simp [refreshGoalGo, hskip, List.find?, hw, ih]
    · rw [Bool.not_eq_true] at hskip
      cases hgen : t.gen with
      | some g =>
        have hw : tacticWins pf.goal t = true := by
          simp [tacticWins, hskip, hgen]
        simp [refreshGoalGo, hskip, hgen, List.find?, hw]
      | none =>
        have hw : tacticWins pf.goal t = false := by
          simp [tacticWins, hgen]
        simp [refreshGoalGo, hskip, hgen, List.find?, hw, ih]

/-- C6: refresh_goal walks the script in priority order; a tactic is
skipped exactly when a goal is set and it does not declare run_always;
the first non-skipped tactic yielding Some goal installs that goal and
ends the walk; and the cached path is cleared precisely when the winning
goal differs from the previously cached goal (otherwise both goal and
path are left untouched). -/
theorem refresh_goal_first_winner (pf : Pathfind) :
    refresh_goal pf =
      match pf.script.find? (tacticWins pf.goal) with
      | none => pf
      | some t =>
        { pf with goal := t.gen,
                  path := if pf.goal = t.gen then pf.path else [] } := by
  unfold refresh_goal
  exact refreshGoalGo_eq_find pf.script pf

/-- C7 counterexample: with a goal already set and a script whose only
(run-always) tactic yields no goal, refresh_goal does not reset the state
to NoGoal: the goal survives the call. -/
theorem refresh_goal_keeps_stale_goal : (refresh_goal pfStuck).goal ≠ none := by
  decide

/-- C7 (amended): a refresh_goal call in which no tactic of the script
yields a goal leaves the Pathfind unchanged; in particular the goal is
None afterwards only when it already was None before the call. -/
theorem refresh_goal_no_yield_unchanged (pf : Pathfind)
    (h : ∀ t ∈ pf.script, t.gen = none) : refresh_goal pf = pf := by
  rw [refresh_goal_first_winner]
  cases hf : pf.script.find? (tacticWins pf.goal) with
  | none => rfl
  | some t =>
    have ht : t ∈ pf.script := List.mem_of_find?_eq_some hf
    have hw : tacticWins pf.goal t = true := List.find?_some hf
    have : t.gen = none := h t ht
    simp [tacticWins, this] at hw

/-- C7 witness: the amended statement at the concrete stuck Pathfind. -/
theorem refresh_goal_no_yield_unchanged_witness :
    refresh_goal pfStuck = pfStuck :=
  refresh_goal_no_yield_unchanged pfStuck (by decide)

/-- C1 counterexample: an entity that has a Position but not the Tangible
component still contributes its position to the occupancy set built by
the movement phase (the source's tangibility filter is commented out), so
membership in the occupancy set does not imply tangibility. -/
theorem buildOccupied_includes_intangible :
    (⟨5, 5⟩ : Point) ∈ buildOccupied [⟨some ⟨5, 5⟩, false⟩] ∧
      ∀ e ∈ ([⟨some ⟨5, 5⟩, false⟩] : List Entity), e.tangible = false := by
  constructor
  · decide
  · intro e he
    simp at he
    rw [he]

/-- C1 (amended): the occupancy set built at the start of the movement
phase contains exactly the current positions of all entities carrying a
Position, tangible or not. -/
theorem buildOccupied_mem (world : List Entity) (p : Point) :
    p ∈ buildOccupied world ↔ ∃ e ∈ world, e.position = some p := by
  simp [buildOccupied, List.mem_filterMap]

/-- repath never changes the goal: helper for the next_pos claims. -/
theorem repath_goal (fuel : Nat) (pf : Pathfind) (current : Point)
    (floor : Floor) (occupied : Finset Point) :
    (repath fuel pf current floor occupied).goal = pf.goal := by
  unfold repath
  cases h : pf.goal <;> simp [h]

/-- C2 counterexample: with a set goal differing from the current
position and a valid cached path [(0,2), (0,1), (0,0)] (current (0,0) is
its last element, so no replanning happens), next_pos pops the last point
(0,0) but returns (0,1) — the new last element — not the popped point, so
the returned step differs from the point that was popped. -/
theorem next_pos_returns_new_last :
    (next_pos 0 pfCached ⟨0, 0⟩ noneFloor ∅).2 = some ⟨0, 1⟩ ∧
      pfCached.path.getLast? = some ⟨0, 0⟩ ∧
      (next_pos 0 pfCached ⟨0, 0⟩ noneFloor ∅).2 ≠ pfCached.path.getLast? := by
  refine ⟨by decide, by decide, by decide⟩

/-- C2 (amended): when a goal is set and differs from the current
position, next_pos validates the cache (replanning when the current
position is not the last path element), removes the last element of the
validated path, and returns the new last element of the shortened path
(the predecessor of the popped point in traversal order); the goal is
cleared exactly when the shortened path is empty. -/
theorem next_pos_behaviour (fuel : Nat) (pf : Pathfind) (current : Point)
    (floor : Floor) (occupied : Finset Point)
    (hgoal : pf.goal ≠ none) (hcur : pf.goal ≠ some current) :
    (next_pos fuel pf current floor occupied).2 =
      (if some current ≠ pf.path.getLast? then
          repath fuel pf current floor occupied
        else pf).path.dropLast.getLast? ∧
    (next_pos fuel pf current floor occupied).1.path =
      (if some current ≠ pf.path.getLast? then
          repath fuel pf current floor occupied
        else pf).path.dropLast ∧
    ((next_pos fuel pf current floor occupied).1.goal = none ↔
      (if some current ≠ pf.path.getLast? then
          repath fuel pf current floor occupied
        else pf).path.dropLast = []) := by
  unfold next_pos
  rw [if_neg (by simp [hgoal, hcur])]
  refine ⟨rfl, rfl, ?_⟩
  by_cases hval : some current ≠ pf.path.getLast? <;>
    simp only [hval, if_true, if_false, ite_true, ite_false] <;>
    by_cases hemp :
        (if some current ≠ pf.path.getLast? then
            repath fuel pf current floor occupied
          else pf).path.dropLast = [] <;>
    simp_all [List.isEmpty_iff, repath_goal]

/-- C2 witness: the amended statement at the concrete cached Pathfind. -/
theorem next_pos_behaviour_witness :
    (next_pos 0 pfCached ⟨0, 0⟩ noneFloor ∅).2 =
      (if some ⟨0, 0⟩ ≠ pfCached.path.getLast? then
          repath 0 pfCached ⟨0, 0⟩ noneFloor ∅
        else pfCached).path.dropLast.getLast? :=
  (next_pos_behaviour 0 pfCached ⟨0, 0⟩ noneFloor ∅ (by decide) (by decide)).1

/-- The retry loop of the movement phase executes at most as many
attempts as its bound: helper for the bounded-retries claim. -/
theorem moveAttempts_count_le (fuel : Nat) (floor : Floor) (p : Point)
    (isWalkable tangible : Bool) :
    ∀ (n : Nat) (pf : Pathfind) (pos : Point) (occupied : Finset Point),
      (moveAttempts fuel floor p isWalkable tangible n pf pos occupied).2.2.2 ≤ n := by
  intro n
  induction n with
  | zero => intro pf pos occupied; simp [moveAttempts]
  | succ n ih =>
    intro pf pos occupied
    unfold moveAttempts
    by_cases hc : (isWalkable && !(decide (p ∈ occupied))) = true
    · simp [hc]
    · rw [Bool.not_eq_true] at hc
      simp only [hc]
      simpa using ih _ pos occupied

/-- When the candidate cell is rejected (unwalkable, or occupied), every
retry rechecks the same unchanged condition, so the position never
changes: helper for the bounded-retries claim. -/
theorem moveAttempts_fail_pos (fuel : Nat) (floor : Floor) (p : Point)
    (isWalkable tangible : Bool) (pos : Point) (occupied : Finset Point)
    (hfail : (isWalkable && !(decide (p ∈ occupied))) = false) :
    ∀ (n : Nat) (pf : Pathfind),
      (moveAttempts fuel floor p isWalkable tangible n pf pos occupied).2.1 = pos ∧
      (moveAttempts fuel floor p isWalkable tangible n pf pos occupied).2.2.1 = occupied := by
  intro n
  induction n with
  | zero => intro pf; exact ⟨rfl, rfl⟩
  | succ n ih =>
    intro pf
    unfold moveAttempts
    simp only [hfail]
    simpa using ih _

/-- C8: movement-phase resolution for one agent performs at most 3
attempts (and, being a total function, always terminates); when next_pos
yields a candidate cell that is unwalkable or already present in the
occupancy set (the retries recheck the same unchanged condition, so
failing once means all 3 attempts fail), the agent position and the
occupancy set are left unchanged for the tick, and no error arises. -/
theorem pathfind_move_bounded (fuel : Nat) (floor : Floor) (pf : Pathfind)
    (pos : Point) (tangible : Bool) (occupied : Finset Point) :
    (pathfindMoveAgent fuel floor pf pos tangible occupied).2.2.2 ≤ 3 ∧
    (∀ pf1 p, next_pos fuel pf pos floor occupied = (pf1, some p) →
      floorWalkable floor p = false ∨ p ∈ occupied →
      (pathfindMoveAgent fuel floor pf pos tangible occupied).2.1 = pos ∧
      (pathfindMoveAgent fuel floor pf pos tangible occupied).2.2.1 = occupied) := by
  constructor
  · unfold pathfindMoveAgent
    rcases hnp : next_pos fuel pf pos floor occupied with ⟨pf1, next⟩
    cases next with
    | none => simp
    | some p => simpa using moveAttempts_count_le fuel floor p _ tangible 3 pf1 pos occupied
  · intro pf1 p hnp hrej
    have hfail : (floorWalkable floor p && !(decide (p ∈ occupied))) = false := by
      rcases hrej with h | h
      · simp [h]
      · simp [h]
    unfold pathfindMoveAgent
    rw [hnp]
    exact moveAttempts_fail_pos fuel floor p _ tangible pos occupied hfail 3 pf1

/-- C8 witness: on an all-wall floor, the cached Pathfind yields the
candidate (0, 1), every attempt rejects it, and the agent stays at
(0, 0) with the occupancy set unchanged; the attempt count is within the
bound. -/
theorem pathfind_move_bounded_witness :
    (pathfindMoveAgent 2 wallFloor pfCached ⟨0, 0⟩ true ∅).2.1 = ⟨0, 0⟩ ∧
    (pathfindMoveAgent 2 wallFloor pfCached ⟨0, 0⟩ true ∅).2.2.2 ≤ 3 :=
  ⟨((pathfind_move_bounded 2 wallFloor pfCached ⟨0, 0⟩ true ∅).2
      ⟨[], some ⟨0, 2⟩, [⟨0, 2⟩, ⟨0, 1⟩]⟩ ⟨0, 1⟩ (by decide)
      (Or.inl (by decide))).1,
   (pathfind_move_bounded 2 wallFloor pfCached ⟨0, 0⟩ true ∅).1⟩

/-- Normal form of the ignite-fold of process_visibility: visible
collects exactly the ignited points, seen their union with the previous
seen set, and the range is untouched. -/
theorem fovFold_eq (pts : List Point) :
    ∀ f0 : Fov,
      pts.foldl
        (fun f p => { f with visible := insert p f.visible,
                             seen := insert p f.seen }) f0 =
        ⟨f0.range, f0.visible ∪ pts.toFinset, f0.seen ∪ pts.toFinset⟩ := by
  induction pts with
  | nil => intro f0; simp
  | cons p pts ih =>
    intro f0
    rw [List.foldl_cons, ih]
    simp [Finset.insert_union, Finset.union_insert]

/-- Normal form of a single process_visibility call. -/
theorem processVisibility_eq (fuel : Nat) (floor : Floor) (pos : Point)
    (fov : Fov) :
    processVisibility fuel floor pos fov =
      ⟨fov.range,
       producedVisible fuel fov.range (floor, pos),
       fov.seen ∪ producedVisible fuel fov.range (floor, pos)⟩ := by
  unfold processVisibility producedVisible
  rw [fovFold_eq]
  simp

/-- C9: after any visibility refresh the visible set is contained in the
seen set; a refresh never removes points from seen; the visible set a
refresh leaves behind is exactly the ignited set determined by that
refresh's floor and position; and across any sequence of refreshes, seen
accumulates exactly the union of all visible sets ever produced (so an
agent starting with empty seen has seen equal to that union). -/
theorem fov_seen_superset (fuel : Nat) :
    (∀ (floor : Floor) (pos : Point) (fov : Fov),
      (processVisibility fuel floor pos fov).visible ⊆
        (processVisibility fuel floor pos fov).seen ∧
      fov.seen ⊆ (processVisibility fuel floor pos fov).seen ∧
      (processVisibility fuel floor pos fov).visible =
        producedVisible fuel fov.range (floor, pos)) ∧
    (∀ (calls : List (Floor × Point)) (fov0 : Fov),
      (processVisibilitySeq fuel calls fov0).seen =
        calls.foldl (fun s c => s ∪ producedVisible fuel fov0.range c)
          fov0.seen) := by
  constructor
  · intro floor pos fov
    rw [processVisibility_eq]
    exact ⟨Finset.subset_union_right, Finset.subset_union_left, rfl⟩
  · intro calls
    induction calls with
    | nil => intro fov0; rfl
    | cons c cs ih =>
      intro fov0
      unfold processVisibilitySeq
      rw [ih, processVisibility_eq]
      rfl

/-- Every point the column walk ignites passes the strict elliptical
range test (in octant-local coordinates), provided the same holds of the
points produced by the sector-split recursion callback: the single ignite
site of the walk sits behind the range test. -/
theorem columnWalk_ellipse (st : FovState) (iso : Point → Bool)
    (recFn : Int → Slope → Slope → List Point) (x tyv byv : Int)
    (hrec : ∀ x' t b q, q ∈ recFn x' t b → ellipseOkLoc st q) :
    ∀ (ys : List Int) (top bottom : Slope) (was : Option Bool) (q : Point),
      q ∈ (columnWalk recFn st iso x tyv byv ys top bottom was).1 →
      ellipseOkLoc st q := by
  intro ys
  induction ys with
  | nil =>
    intro top bottom was q hq
    simp [columnWalk] at hq
  | cons y ys ih =>
    intro top bottom was q hq
    simp only [columnWalk] at hq
    by_cases hnorm :
        x * x * (rangeLoc st).y * (rangeLoc st).y +
            y * y * (rangeLoc st).x * (rangeLoc st).x ≥
          (rangeLoc st).x * (rangeLoc st).x * (rangeLoc st).y * (rangeLoc st).y
    · rw [if_pos hnorm] at hq
      exact ih top bottom was q hq
    · rw [if_neg hnorm] at hq
      push_neg at hnorm
      have hpt : ellipseOkLoc st (oct2map st.origin st.octant ⟨x, y⟩) :=
        ⟨x, y, rfl, hnorm⟩
      split_ifs at hq
      all_goals
        try simp only [List.mem_append, List.mem_singleton, List.mem_nil_iff,
          or_false, false_or] at hq
      all_goals
        repeat rcases hq with hq | hq
      all_goals
        first
          | exact hpt
          | exact hrec _ _ _ q hq
          | exact ih _ _ _ q hq

/-- Every point the outer column loop ignites passes the strict
elliptical range test, under the same hypothesis on the recursion
callback. -/
theorem outerX_ellipse (st : FovState) (iso : Point → Bool)
    (recFn : Int → Slope → Slope → List Point)
    (hrec : ∀ x' t b q, q ∈ recFn x' t b → ellipseOkLoc st q) :
    ∀ (xs : List Int) (top bottom : Slope) (q : Point),
      q ∈ outerX recFn st iso xs top bottom → ellipseOkLoc st q := by
  intro xs
  induction xs with
  | nil =>
    intro top bottom q hq
    simp [outerX] at hq
  | cons x xs ih =>
    intro top bottom q hq
    simp only [outerX] at hq
    set tyv := topEntryY st iso top x
    set byv := bottomEntryY st iso bottom x
    rcases hout :
        (columnWalk recFn st iso x tyv byv (intRangeDesc tyv byv)
          top bottom none).2 with
      ⟨top', bottom'⟩ | _
    · rw [hout] at hq
      have hq' : q ∈
          (columnWalk recFn st iso x tyv byv (intRangeDesc tyv byv)
              top bottom none).1 ++
            outerX recFn st iso xs top' bottom' := hq
      rcases List.mem_append.mp hq' with hmem | hmem
      · exact columnWalk_ellipse st iso recFn x tyv byv hrec _ _ _ _ q hmem
      · exact ih top' bottom' q hmem
    · rw [hout] at hq
      have hq' : q ∈
          (columnWalk recFn st iso x tyv byv (intRangeDesc tyv byv)
            top bottom none).1 := hq
      exact columnWalk_ellipse st iso recFn x tyv byv hrec _ _ _ _ q hq'

/-- Every point State::recurse ignites passes the strict elliptical
range test, for every fuel. -/
theorem fovRecurse_ellipse (st : FovState) (iso : Point → Bool) :
    ∀ (fuel : Nat) (xStart : Int) (top bottom : Slope) (q : Point),
      q ∈ fovRecurse fuel st iso xStart top bottom → ellipseOkLoc st q := by
  intro fuel
  induction fuel with
  | zero =>
    intro xStart top bottom q hq
    simp [fovRecurse] at hq
  | succ fuel ih =>
    intro xStart top bottom q hq
    exact outerX_ellipse st iso (fovRecurse fuel st iso)
      (fun x' t b q' hq' => ih x' t b q' hq') _ top bottom q hq

/-- Transferring the octant-local elliptical range test to map
coordinates: in the four coordinate-swapping octants the swapped
semi-axes compensate the swapped offset components exactly, so the map
form of the strict inequality holds in every octant. -/
theorem ellipseOk_transfer (origin range : Point) (octant : Nat)
    (hoct : octant < 8) (q : Point)
    (h : ellipseOkLoc ⟨origin, range, octant⟩ q) :
    (q.sub origin).x ^ 2 * range.y ^ 2 + (q.sub origin).y ^ 2 * range.x ^ 2 <
      (range.x * range.y) ^ 2 := by
  obtain ⟨a, b, hq, hlt⟩ := h
  subst hq
  interval_cases octant <;>
    simp only [oct2map, rangeLoc, Point.sub, List.contains] at hlt ⊢ <;>
    simp at hlt ⊢ <;>
    nlinarith [hlt]

/-- C5: every point the FOV engine ignites other than the origin
satisfies the strict elliptical range inequality in map coordinates,
with the range semi-axes (a, b) = (range.x, range.y) and (dx, dy) the
offset from the origin: dx^2 b^2 + dy^2 a^2 < (a b)^2; boundary points,
where equality holds, are never ignited — in every octant, including the
four that swap the x/y roles. -/
theorem milazzo_ellipse_strict (fuel : Nat) (origin range : Point)
    (iso : Point → Bool) (p : Point) (hp : p ∈ milazzo fuel origin range iso)
    (hne : p ≠ origin) :
    (p.sub origin).x ^ 2 * range.y ^ 2 + (p.sub origin).y ^ 2 * range.x ^ 2 <
      (range.x * range.y) ^ 2 := by
  unfold milazzo at hp
  rcases List.mem_cons.mp hp with h | h
  · exact absurd h hne
  · rcases List.mem_flatMap.mp h with ⟨octant, hoct, hmem⟩
    have hlt : octant < 8 := List.mem_range.mp hoct
    exact ellipseOk_transfer origin range octant hlt p
      (fovRecurse_ellipse ⟨origin, range, octant⟩ iso fuel 1 ⟨1, 1⟩ ⟨1, 0⟩ p hmem)

/-- C5 witness: with range (2, 2) on a fully transparent map, the point
(1, 1) is ignited from origin (0, 0) and satisfies the strict
inequality. -/
theorem milazzo_ellipse_strict_witness :
    ((⟨1, 1⟩ : Point).sub ⟨0, 0⟩).x ^ 2 * (⟨2, 2⟩ : Point).y ^ 2 +
        ((⟨1, 1⟩ : Point).sub ⟨0, 0⟩).y ^ 2 * (⟨2, 2⟩ : Point).x ^ 2 <
      ((⟨2, 2⟩ : Point).x * (⟨2, 2⟩ : Point).y) ^ 2 :=
  milazzo_ellipse_strict 4 ⟨0, 0⟩ ⟨2, 2⟩ isoClear ⟨1, 1⟩ (by decide) (by decide)

/-- A cost strictly below another is finite (f64::INFINITY is never
strictly below anything). -/
theorem infLt_left_isSome {a b : Option ℚ} (h : infLt a b = true) :
    a.isSome := by
  cases a with
  | none => simp [infLt] at h
  | some q => rfl

/-- A finite cost not strictly below another forces that other to be
finite as well (every finite cost is strictly below f64::INFINITY). -/
theorem infLt_not_some_none {a : ℚ} {b : Option ℚ}
    (h : infLt (some a) b = false) : b.isSome := by
  cases b with
  | none => simp [infLt] at h
  | some q => rfl

/-- popMin returns none exactly on the empty queue. -/
theorem popMin_eq_none {l : List AStarNode} (h : popMin l = none) :
    l = [] := by
  cases l with
  | nil => rfl
  | cons n rest =>
    rw [popMin] at h
    rcases hr : popMin rest with _ | ⟨m, rest'⟩ <;> rw [hr] at h
    · simp at h
    · by_cases hlt : infLt m.1 n.1 = true <;> simp [hlt] at h

/-- popMin removes exactly one occurrence of the returned node: the
original queue is a permutation of the node together with the rest. -/
theorem popMin_perm :
    ∀ {l : List AStarNode} {n : AStarNode} {rest : List AStarNode},
      popMin l = some (n, rest) → l.Perm (n :: rest) := by
  intro l
  induction l with
  | nil => intro n rest h; simp [popMin] at h
  | cons a r ih =>
    intro n rest h
    rw [popMin] at h
    rcases hr : popMin r with _ | ⟨m, r'⟩ <;> rw [hr] at h
    · have hrnil := popMin_eq_none hr
      subst hrnil
      simp at h
      rw [h.1, h.2]
    · by_cases hlt : infLt m.1 a.1 = true <;> simp [hlt] at h
      · obtain ⟨rfl, rfl⟩ := h
        exact ((ih hr).cons a).trans (List.Perm.swap m a r')
      · obtain ⟨rfl, rfl⟩ := h
        exact List.Perm.refl _

/-- One expansion step never discards a g-score. -/
theorem aStarStep_gs_mono (canWalk : Point → Bool)
    (distance : Point → Point → ℚ) (heuristic : Point → ℚ)
    (current : Point) (st : AState) (d : Point) (p : Point)
    (h : (st.2.2 p).isSome) :
    ((aStarStep canWalk distance heuristic current st d).2.2 p).isSome := by
  obtain ⟨opens, cameFrom, gScores⟩ := st
  unfold aStarStep
  by_cases hw : canWalk (current.add d) = true
  · simp only [hw, if_true]
    by_cases hlt :
        infLt (infAdd (gScores current) (distance current (current.add d)))
          (gScores (current.add d)) = true
    · simp only [hlt, if_true]
      by_cases hp : p = current.add d
      · subst hp
        simpa using infLt_left_isSome hlt
      · simpa [hp] using h
    · simpa [hlt] using h
  · simpa [hw] using h

/-- One expansion step keeps every queued node queued. -/
theorem aStarStep_opens_mono (canWalk : Point → Bool)
    (distance : Point → Point → ℚ) (heuristic : Point → ℚ)
    (current : Point) (st : AState) (d : Point) (n : AStarNode)
    (h : n ∈ st.1) :
    n ∈ (aStarStep canWalk distance heuristic current st d).1 := by
  obtain ⟨opens, cameFrom, gScores⟩ := st
  unfold aStarStep
  by_cases hw : canWalk (current.add d) = true
  · simp only [hw, if_true]
    by_cases hlt :
        infLt (infAdd (gScores current) (distance current (current.add d)))
          (gScores (current.add d)) = true
    · simp only [hlt, if_true]
      exact List.mem_cons_of_mem _ h
    · simpa [hlt] using h
  · simpa [hw] using h

/-- Any node queued after one expansion step was queued before, or is the
walkable neighbor the step considered. -/
theorem aStarStep_opens_sub (canWalk : Point → Bool)
    (distance : Point → Point → ℚ) (heuristic : Point → ℚ)
    (current : Point) (st : AState) (d : Point) (n : AStarNode)
    (h : n ∈ (aStarStep canWalk distance heuristic current st d).1) :
    n ∈ st.1 ∨ (n.2 = current.add d ∧ canWalk (current.add d) = true) := by
  obtain ⟨opens, cameFrom, gScores⟩ := st
  unfold aStarStep at h
  by_cases hw : canWalk (current.add d) = true
  · simp only [hw, if_true] at h
    by_cases hlt :
        infLt (infAdd (gScores current) (distance current (current.add d)))
          (gScores (current.add d)) = true
    · simp only [hlt, if_true] at h
      rcases List.mem_cons.mp h with hn | hn
      · right
        rw [hn]
        exact ⟨rfl, hw⟩
      · exact Or.inl hn
    · simp only [hlt, if_false] at h
      exact Or.inl h
  · simp only [hw, if_false] at h
    exact Or.inl h

/-- Any g-score present after one expansion step was present before, or
belongs to a point that the step also queued. -/
theorem aStarStep_gs_new (canWalk : Point → Bool)
    (distance : Point → Point → ℚ) (heuristic : Point → ℚ)
    (current : Point) (st : AState) (d : Point) (p : Point)
    (h : ((aStarStep canWalk distance heuristic current st d).2.2 p).isSome) :
    (st.2.2 p).isSome ∨
      ∃ n ∈ (aStarStep canWalk distance heuristic current st d).1,
        n.2 = p := by
  obtain ⟨opens, cameFrom, gScores⟩ := st
  unfold aStarStep at h ⊢
  by_cases hw : canWalk (current.add d) = true
  · simp only [hw, if_true] at h ⊢
    by_cases hlt :
        infLt (infAdd (gScores current) (distance current (current.add d)))
          (gScores (current.add d)) = true
    · simp only [hlt, if_true] at h ⊢
      by_cases hp : p = current.add d
      · subst hp
        right
        exact ⟨(infAdd (infAdd (gScores current)
            (distance current (current.add d)))
            (heuristic (current.add d)), current.add d),
          List.mem_cons_self _ _, rfl⟩
      · left
        simpa [hp] using h
    · simp only [hlt, if_false] at h
      exact Or.inl h
  · simp only [hw, if_false] at h
    exact Or.inl h

/-- The whole neighbor fold never discards a g-score. -/
theorem foldStep_gs_mono (canWalk : Point → Bool)
    (distance : Point → Point → ℚ) (heuristic : Point → ℚ)
    (current : Point) :
    ∀ (L : List Point) (st : AState) (p : Point),
      (st.2.2 p).isSome →
      ((L.foldl (aStarStep canWalk distance heuristic current) st).2.2 p).isSome := by
  intro L
  induction L with
  | nil => intro st p h; exact h
  | cons d L ih =>
    intro st p h
    exact ih _ p (aStarStep_gs_mono canWalk distance heuristic current st d p h)

/-- The whole neighbor fold keeps every queued node queued. -/
theorem foldStep_opens_mono (canWalk : Point → Bool)
    (distance : Point → Point → ℚ) (heuristic : Point → ℚ)
    (current : Point) :
    ∀ (L : List Point) (st : AState) (n : AStarNode),
      n ∈ st.1 →
      n ∈ (L.foldl (aStarStep canWalk distance heuristic current) st).1 := by
  intro L
  induction L with
  | nil => intro st n h; exact h
  | cons d L ih =>
    intro st n h
    exact ih _ n (aStarStep_opens_mono canWalk distance heuristic current st d n h)

/-- Any node queued after the neighbor fold was queued before, or is a
walkable neighbor of the expanded node in one of the fold's
directions. -/
theorem foldStep_opens_sub (canWalk : Point → Bool)
    (distance : Point → Point → ℚ) (heuristic : Point → ℚ)
    (current : Point) :
    ∀ (L : List Point) (st : AState) (n : AStarNode),
      n ∈ (L.foldl (aStarStep canWalk distance heuristic current) st).1 →
      n ∈ st.1 ∨
        ∃ d ∈ L, n.2 = current.add d ∧ canWalk (current.add d) = true := by
  intro L
  induction L with
  | nil => intro st n h; exact Or.inl h
  | cons d L ih =>
    intro st n h
    rcases ih _ n h with hn | ⟨d', hd', hn⟩
    · rcases aStarStep_opens_sub canWalk distance heuristic current st d n hn with
        hn' | hn'
      · exact Or.inl hn'
      · exact Or.inr ⟨d, List.mem_cons_self _ _, hn'⟩
    · exact Or.inr ⟨d', List.mem_cons_of_mem _ hd', hn⟩

/-- Any g-score present after the neighbor fold was present before, or
belongs to a point the fold left queued. -/
theorem foldStep_gs_new (canWalk : Point → Bool)
    (distance : Point → Point → ℚ) (heuristic : Point → ℚ)
    (current : Point) :
    ∀ (L : List Point) (st : AState) (p : Point),
      ((L.foldl (aStarStep canWalk distance heuristic current) st).2.2 p).isSome →
      (st.2.2 p).isSome ∨
        ∃ n ∈ (L.foldl (aStarStep canWalk distance heuristic current) st).1,
          n.2 = p := by
  intro L
  induction L with
  | nil => intro st p h; exact Or.inl h
  | cons d L ih =>
    intro st p h
    rcases ih _ p h with hp | hp
    · rcases aStarStep_gs_new canWalk distance heuristic current st d p hp with
        hp' | ⟨n, hn, hnp⟩
      · exact Or.inl hp'
      · exact Or.inr ⟨n,
          foldStep_opens_mono canWalk distance heuristic current L _ n hn, hnp⟩
    · exact Or.inr hp

/-- After one expansion step, every queued node has a g-score, provided
that held before the step (the push inserts the neighbor's g-score in the
same step). -/
theorem aStarStep_heap_gs (canWalk : Point → Bool)
    (distance : Point → Point → ℚ) (heuristic : Point → ℚ)
    (current : Point) (st : AState) (d : Point)
    (h : ∀ n ∈ st.1, (st.2.2 n.2).isSome) :
    ∀ n ∈ (aStarStep canWalk distance heuristic current st d).1,
      ((aStarStep canWalk distance heuristic current st d).2.2 n.2).isSome := by
  obtain ⟨opens, cameFrom, gScores⟩ := st
  unfold aStarStep
  by_cases hw : canWalk (current.add d) = true
  · simp only [hw, if_true]
    by_cases hlt :
        infLt (infAdd (gScores current) (distance current (current.add d)))
          (gScores (current.add d)) = true
    · simp only [hlt, if_true]
      intro n hn
      rcases List.mem_cons.mp hn with hn' | hn'
      · rw [hn']
        simpa using infLt_left_isSome hlt
      · by_cases hp : n.2 = current.add d
        · simpa [hp] using infLt_left_isSome hlt
        · simpa [hp] using h n hn'
    · simpa [hlt] using h
  · simpa [hw] using h

/-- After the neighbor fold, every queued node has a g-score, provided
that held before the fold. -/
theorem foldStep_heap_gs (canWalk : Point → Bool)
    (distance : Point → Point → ℚ) (heuristic : Point → ℚ)
    (current : Point) :
    ∀ (L : List Point) (st : AState),
      (∀ n ∈ st.1, (st.2.2 n.2).isSome) →
      ∀ n ∈ (L.foldl (aStarStep canWalk distance heuristic current) st).1,
        ((L.foldl (aStarStep canWalk distance heuristic current) st).2.2 n.2).isSome := by
  intro L
  induction L with
  | nil => intro st h n hn; exact h n hn
  | cons d L ih =>
    intro st h n hn
    exact ih _ (aStarStep_heap_gs canWalk distance heuristic current st d h) n hn

/-- After one expansion step in direction d, the considered walkable
neighbor has a g-score, provided the expanded node has one (either the
improvement was recorded, or the neighbor already had a better score). -/
theorem aStarStep_closes (canWalk : Point → Bool)
    (distance : Point → Point → ℚ) (heuristic : Point → ℚ)
    (current : Point) (st : AState) (d : Point)
    (hcur : (st.2.2 current).isSome)
    (hw : canWalk (current.add d) = true) :
    ((aStarStep canWalk distance heuristic current st d).2.2 (current.add d)).isSome := by
  obtain ⟨opens, cameFrom, gScores⟩ := st
  obtain ⟨q, hq⟩ := Option.isSome_iff_exists.mp hcur
  have hq' : gScores current = some q := hq
  unfold aStarStep
  simp only [hw, if_true]
  by_cases hlt :
      infLt (infAdd (gScores current) (distance current (current.add d)))
        (gScores (current.add d)) = true
  · simp only [hlt, if_true]
    simpa using infLt_left_isSome hlt
  · rw [Bool.not_eq_true] at hlt
    simp only [hlt, Bool.false_eq_true, if_false]
    rw [hq'] at hlt
    simp only [infAdd, Option.map_some'] at hlt
    exact infLt_not_some_none hlt

/-- After the neighbor fold, every walkable neighbor of the expanded
node has a g-score, provided the expanded node has one. -/
theorem foldStep_closes (canWalk : Point → Bool)
    (distance : Point → Point → ℚ) (heuristic : Point → ℚ)
    (current : Point) :
    ∀ (L : List Point) (st : AState),
      (st.2.2 current).isSome →
      ∀ d ∈ L, canWalk (current.add d) = true →
        ((L.foldl (aStarStep canWalk distance heuristic current) st).2.2
          (current.add d)).isSome := by
  intro L
  induction L with
  | nil => intro st hcur d hd; exact absurd hd (List.not_mem_nil d)
  | cons d0 L ih =>
    intro st hcur d hd hw
    rcases List.mem_cons.mp hd with hd' | hd'
    · subst hd'
      exact foldStep_gs_mono canWalk distance heuristic current L _ _
        (aStarStep_closes canWalk distance heuristic current st d hcur hw)
    · exact ih _
        (aStarStep_gs_mono canWalk distance heuristic current st d0 current hcur)
        d hd' hw

/-- The invariant holds of the initial A* state. -/
theorem aStarInv_init (canWalk : Point → Bool) (heuristic : Point → ℚ)
    (start goal : Point) :
    AStarInv canWalk start goal
      ([(some (heuristic start), start)],
       fun _ => none,
       fun p => if p = start then some 0 else none) := by
  refine ⟨?_, ?_, ?_, ?_, ?_⟩
  · intro n hn
    rcases List.mem_singleton.mp hn with rfl
    exact Reach.refl
  · simp
  · intro n hn
    rcases List.mem_singleton.mp hn with rfl
    simp
  · intro p hp
    left
    refine ⟨(some (heuristic start), start), List.mem_singleton_self _, ?_⟩
    by_cases hps : p = start
    · exact hps.symm
    · simp [hps] at hp
  · intro hg
    by_cases hgs : goal = start
    · exact ⟨(some (heuristic start), start), List.mem_singleton_self _, hgs.symm⟩
    · simp [hgs] at hg

/-- The invariant is preserved by one iteration of the A* main loop:
popping a non-goal node and folding its neighbor expansion. -/
theorem aStarInv_preserved (canWalk : Point → Bool)
    (distance : Point → Point → ℚ) (heuristic : Point → ℚ)
    (start goal : Point) (opens : List AStarNode)
    (cameFrom : Point → Option Point) (gScores : Point → Option ℚ)
    (node : AStarNode) (rest : List AStarNode)
    (hinv : AStarInv canWalk start goal (opens, cameFrom, gScores))
    (hpop : popMin opens = some (node, rest))
    (hne : node.2 ≠ goal) :
    AStarInv canWalk start goal
      (dirAll.foldl (aStarStep canWalk distance heuristic node.2)
        (rest, cameFrom, gScores)) := by
  obtain ⟨hreach, hstart, hheap, hclosed, hgoal⟩ := hinv
  have hperm := popMin_perm hpop
  have hmem : ∀ n ∈ rest, n ∈ opens := by
    intro n hn
    exact hperm.mem_iff.mpr (List.mem_cons_of_mem _ hn)
  have hnode : node ∈ opens := hperm.mem_iff.mpr (List.mem_cons_self _ _)
  have hreach_node : Reach canWalk start node.2 := hreach node hnode
  have hgs_node : (gScores node.2).isSome := hheap node hnode
  refine ⟨?_, ?_, ?_, ?_, ?_⟩
  · intro n hn
    rcases foldStep_opens_sub canWalk distance heuristic node.2 dirAll
      (rest, cameFrom, gScores) n hn with hn' | ⟨d, hd, hnp, hw⟩
    · exact hreach n (hmem n hn')
    · rw [hnp]
      exact Reach.step hreach_node hd hw
  · exact foldStep_gs_mono canWalk distance heuristic node.2 dirAll
      (rest, cameFrom, gScores) start hstart
  · exact foldStep_heap_gs canWalk distance heuristic node.2 dirAll
      (rest, cameFrom, gScores) (fun n hn => hheap n (hmem n hn))
  · intro p hp
    rcases foldStep_gs_new canWalk distance heuristic node.2 dirAll
      (rest, cameFrom, gScores) p hp with hp' | hp'
    · rcases hclosed p hp' with ⟨n, hn, hnp⟩ | hcl
      · rcases List.mem_cons.mp (hperm.mem_iff.mp hn) with hn' | hn'
        · subst hn'
          right
          intro d hd hw
          rw [← hnp] at hw ⊢
          exact foldStep_closes canWalk distance heuristic n.2 dirAll
            (rest, cameFrom, gScores) hgs_node d hd hw
        · left
          exact ⟨n, foldStep_opens_mono canWalk distance heuristic node.2
            dirAll _ n hn', hnp⟩
      · right
        intro d hd hw
        exact foldStep_gs_mono canWalk distance heuristic node.2 dirAll
          (rest, cameFrom, gScores) _ (hcl d hd hw)
    · exact Or.inl hp'
  · intro hg
    rcases foldStep_gs_new canWalk distance heuristic node.2 dirAll
      (rest, cameFrom, gScores) goal hg with hg' | hg'
    · rcases hgoal hg' with ⟨n, hn, hnp⟩
      rcases List.mem_cons.mp (hperm.mem_iff.mp hn) with hn' | hn'
      · exact absurd (hn' ▸ hnp) hne
      · exact ⟨n, foldStep_opens_mono canWalk distance heuristic node.2
          dirAll _ n hn', hnp⟩
    · exact hg'

/-- When the g-score map is neighbor-closed, every reachable point has a
g-score. -/
theorem reach_gs (canWalk : Point → Bool) (start : Point)
    (gs : Point → Option ℚ) (hstart : (gs start).isSome)
    (hclosed : ∀ p, (gs p).isSome →
      ∀ d ∈ dirAll, canWalk (p.add d) = true → (gs (p.add d)).isSome) :
    ∀ p, Reach canWalk start p → (gs p).isSome := by
  intro p h
  induction h with
  | refl => exact hstart
  | step hr hd hw ih => exact hclosed _ ih _ hd hw

/-- Correctness of the A* main loop under the invariant: whenever the
loop terminates within its fuel, it returns None exactly on unreachable
goals (it returns a path only for a popped node equal to the goal, which
the invariant shows reachable; and it returns None only with an exhausted
queue, whose invariant closes the scored set under walkable neighbors and
keeps the goal unscored). -/
theorem aStarLoop_correct (canWalk : Point → Bool)
    (distance : Point → Point → ℚ) (heuristic : Point → ℚ)
    (start goal : Point) :
    ∀ (fuel : Nat) (opens : List AStarNode) (cameFrom : Point → Option Point)
      (gScores : Point → Option ℚ),
      AStarInv canWalk start goal (opens, cameFrom, gScores) →
      ∀ r, aStarLoop canWalk distance heuristic goal fuel opens cameFrom gScores =
          some r →
        (r = none → ¬ Reach canWalk start goal) ∧
        (∀ path, r = some path → Reach canWalk start goal) := by
  intro fuel
  induction fuel with
  | zero =>
    intro opens cameFrom gScores hinv r h
    simp [aStarLoop] at h
  | succ fuel ih =>
    intro opens cameFrom gScores hinv r h
    unfold aStarLoop at h
    rcases hpop : popMin opens with _ | ⟨node, rest⟩ <;>
      simp only [hpop] at h
    · have hr : r = none := by simpa using h.symm
      subst hr
      refine ⟨fun _ hreach => ?_, fun path hp => by simp at hp⟩
      obtain ⟨hre, hstart, hheap, hclosed, hgoal⟩ := hinv
      have hopens : opens = [] := popMin_eq_none hpop
      subst hopens
      have hcl : ∀ p, (gScores p).isSome →
          ∀ d ∈ dirAll, canWalk (p.add d) = true →
            (gScores (p.add d)).isSome := by
        intro p hp d hd hw
        rcases hclosed p hp with ⟨n, hn, _⟩ | hc
        · exact absurd hn (List.not_mem_nil n)
        · exact hc d hd hw
      have hsome := reach_gs canWalk start gScores hstart hcl goal hreach
      rcases hgoal hsome with ⟨n, hn, _⟩
      exact absurd hn (List.not_mem_nil n)
    · by_cases hg : node.2 = goal
      · rw [if_pos hg] at h
        have hr : r = some (buildPath cameFrom (fuel + 1) node.2) := by
          simpa using h.symm
        subst hr
        refine ⟨fun h0 => by simp at h0, fun path _ => ?_⟩
        have hnode : node ∈ opens :=
          (popMin_perm hpop).mem_iff.mpr (List.mem_cons_self _ _)
        exact hg ▸ hinv.1 node hnode
      · rw [if_neg hg] at h
        exact ih _ _ _
          (aStarInv_preserved canWalk distance heuristic start goal opens
            cameFrom gScores node rest hinv hpop hg) r h

/-- C3: whenever a_star terminates within its fuel, it returns None
exactly when the goal is unreachable from start through cells accepted by
can_walk, and a path otherwise — for every start, goal, walkability
predicate, distance function and heuristic; in particular, on the
concrete instance whose goal (5, 5) has no walkable neighbor at all (the
single walkable cell is (1, 0)), the Manhattan search returns None. -/
theorem a_star_none_iff_unreachable :
    (∀ (canWalk : Point → Bool) (distance : Point → Point → ℚ)
        (heuristic : Point → ℚ) (start goal : Point) (fuel : Nat)
        (r : Option (List Point)),
        a_star fuel start goal canWalk distance heuristic = some r →
        (r = none ↔ ¬ Reach canWalk start goal)) ∧
      (manhattan_a_star 4 ⟨0, 0⟩ ⟨5, 5⟩ cwOne = some none ∧
        ∀ d ∈ dirAll, cwOne ((⟨5, 5⟩ : Point).add d) = false) := by
  constructor
  · intro canWalk distance heuristic start goal fuel r h
    unfold a_star at h
    have hc := aStarLoop_correct canWalk distance heuristic start goal fuel _ _ _
      (aStarInv_init canWalk heuristic start goal) r h
    constructor
    · exact hc.1
    · intro hnr
      cases r with
      | none => rfl
      | some path => exact absurd (hc.2 path rfl) hnr
  · exact ⟨by decide, by decide⟩

/-- C3 witness: the search on the enclosed-goal instance terminates with
None, so the goal (5, 5) is indeed unreachable from (0, 0) under the
walkability predicate accepting only (1, 0). -/
theorem a_star_none_iff_unreachable_witness :
    ¬ Reach cwOne ⟨0, 0⟩ ⟨5, 5⟩ :=
  (a_star_none_iff_unreachable.1 cwOne
    (fun a b => ((a.sub b).manhattan : ℚ))
    (fun n => ((n.sub (⟨5, 5⟩ : Point)).manhattan : ℚ))
    ⟨0, 0⟩ ⟨5, 5⟩ 4 none (by decide)).mp rfl
